import Mathlib

/-!
Verification of the jazz cojson known-state / CoValueCore loading spec.

The first part embeds `combineKnownStateSessions` from
`src/packages/cojson/src/knownState.ts` directly.  A session map
(`CoValueKnownState["sessions"]`, a JS object `Record<SessionID, number>`)
is modelled extensionally as a `Finmap` from session IDs to natural-number
transaction counts; JS object key-insertion order is not observable through
the map interface the code uses.
-/

abbrev SessionID := String

/-- A JS `Record<SessionID, number>` of transaction counts, viewed
extensionally as a finite map. -/
abbrev Sessions := Finmap (fun _ : SessionID => Nat)

/-- JS `x || 0` on an optionally-present numeric field: `undefined` reads
as `0`, and a present `0` is falsy so it also yields `0`. -/
def jsOrZero (x : Option Nat) : Nat := x.getD 0

/-- The loop body of `combineKnownStateSessions`: for each `sessionID` in
the given key list, assign
`sessionStates[sessionID] = Math.max(a[sessionID] || 0, b[sessionID] || 0)`
into an initially empty object. -/
def combineOnKeys (a b : Sessions) (keyList : List SessionID) : Sessions :=
  keyList.foldl
    (fun sessionStates sessionID =>
      sessionStates.insert sessionID
        (max (jsOrZero (a.lookup sessionID)) (jsOrZero (b.lookup sessionID))))
    ∅

lemma foldl_insert_lookup (f : SessionID → Nat) (l : List SessionID)
    (init : Sessions) (s : SessionID) :
    (l.foldl (fun acc k => acc.insert k (f k)) init).lookup s =
      if s ∈ l then some (f s) else init.lookup s := by
  induction l generalizing init with
  | nil => simp
  | cons k l ih =>
    simp only [List.foldl_cons, ih, List.mem_cons]
    by_cases hs : s ∈ l
    · simp [hs]
    · by_cases hk : s = k
      · subst hk
        simp [hs, Finmap.lookup_insert]
      · simp [hs, hk, Finmap.lookup_insert_of_ne _ hk]

lemma combineOnKeys_lookup (a b : Sessions) (l : List SessionID)
    (s : SessionID) :
    (combineOnKeys a b l).lookup s =
      if s ∈ l then
        some (max (jsOrZero (a.lookup s)) (jsOrZero (b.lookup s)))
      else none := by
  unfold combineOnKeys
  rw [foldl_insert_lookup
    (fun k => max (jsOrZero (a.lookup k)) (jsOrZero (b.lookup k)))]
  by_cases h : s ∈ l <;> simp [h]

lemma combineOnKeys_perm (a b : Sessions) {l₁ l₂ : List SessionID}
    (h : l₁.Perm l₂) : combineOnKeys a b l₁ = combineOnKeys a b l₂ :=
  Finmap.ext_lookup fun s => by
    rw [combineOnKeys_lookup, combineOnKeys_lookup]
    simp [h.mem_iff]

/-- Embedding of `combineKnownStateSessions(a, b)` from `knownState.ts`:
iterate over `Object.keys(a).concat(Object.keys(b))` and write
`Math.max(a[sessionID] || 0, b[sessionID] || 0)` for each key into an
initially empty object.  The key enumeration is lifted from the underlying
association lists; any enumeration order yields the same map because the
written value depends only on the key. -/
def combineKnownStateSessions (a b : Sessions) : Sessions :=
  Finmap.liftOn₂ a b (fun la lb => combineOnKeys a b (la.keys ++ lb.keys))
    (fun a₁ b₁ a₂ b₂ p₁ p₂ =>
      combineOnKeys_perm a b
        ((p₁.map Sigma.fst).append (p₂.map Sigma.fst)))

lemma combineKnownStateSessions_lookup (a b : Sessions) (s : SessionID) :
    (combineKnownStateSessions a b).lookup s =
      if s ∈ a ∨ s ∈ b then
        some (max (jsOrZero (a.lookup s)) (jsOrZero (b.lookup s)))
      else none := by
  induction a using Finmap.induction_on with
  | H la =>
    induction b using Finmap.induction_on with
    | H lb =>
      rw [combineKnownStateSessions, Finmap.liftOn₂_toFinmap,
        combineOnKeys_lookup]
      have hmem : s ∈ la.keys ++ lb.keys ↔ s ∈ la ∨ s ∈ lb := by
        simp [List.mem_append, AList.mem_keys]
      by_cases h : s ∈ la ∨ s ∈ lb
      · simp [hmem.mpr h, h, Finmap.mem_toFinmap, Finmap.lookup_toFinmap]
      · have hn : s ∉ la.keys ++ lb.keys := fun hc => h (hmem.mp hc)
        simp [hn, h, Finmap.mem_toFinmap, Finmap.lookup_toFinmap]

lemma combineKnownStateSessions_mem (a b : Sessions) (s : SessionID) :
    s ∈ combineKnownStateSessions a b ↔ s ∈ a ∨ s ∈ b := by
  rw [Finmap.mem_iff, combineKnownStateSessions_lookup]
  by_cases h : s ∈ a ∨ s ∈ b <;> simp [h]

lemma jsOrZero_combine (a b : Sessions) (s : SessionID) :
    jsOrZero ((combineKnownStateSessions a b).lookup s) =
      max (jsOrZero (a.lookup s)) (jsOrZero (b.lookup s)) := by
  rw [combineKnownStateSessions_lookup]
  by_cases h : s ∈ a ∨ s ∈ b
  · simp [h, jsOrZero]
  · push_neg at h
    rw [Finmap.lookup_eq_none.mpr h.1, Finmap.lookup_eq_none.mpr h.2]
    simp [h, jsOrZero]

lemma jsOrZero_ite (c : Prop) [Decidable c] (x : Nat) :
    jsOrZero (if c then some x else none) = if c then x else 0 := by
  by_cases h : c <;> simp [h, jsOrZero]

lemma ite_mem_max (a b : Sessions) (s : SessionID) :
    (if s ∈ a ∨ s ∈ b then
      max (jsOrZero (a.lookup s)) (jsOrZero (b.lookup s))
    else 0) = max (jsOrZero (a.lookup s)) (jsOrZero (b.lookup s)) := by
  by_cases h : s ∈ a ∨ s ∈ b
  · simp [h]
  · push_neg at h
    rw [Finmap.lookup_eq_none.mpr h.1, Finmap.lookup_eq_none.mpr h.2]
    simp [jsOrZero]

/-- C4: for every pair of session maps `a` and `b`,
`combineKnownStateSessions a b` has as keys exactly the session keys
appearing in `a` or `b`, and maps every such session `s` to
`max (a[s] or 0) (b[s] or 0)`; sessions in neither map are absent. -/
theorem combineKnownStateSessions_correct (a b : Sessions) (s : SessionID) :
    (s ∈ combineKnownStateSessions a b ↔ s ∈ a ∨ s ∈ b) ∧
    (combineKnownStateSessions a b).lookup s =
      (if s ∈ a ∨ s ∈ b then
        some (max (jsOrZero (a.lookup s)) (jsOrZero (b.lookup s)))
      else none) :=
  ⟨combineKnownStateSessions_mem a b s, combineKnownStateSessions_lookup a b s⟩

/-- C5: `combineKnownStateSessions` is commutative, associative, and
idempotent (as an operation on session maps). -/
theorem combineKnownStateSessions_comm_assoc_idem :
    (∀ a b : Sessions,
      combineKnownStateSessions a b = combineKnownStateSessions b a) ∧
    (∀ a b c : Sessions,
      combineKnownStateSessions (combineKnownStateSessions a b) c =
        combineKnownStateSessions a (combineKnownStateSessions b c)) ∧
    (∀ a : Sessions, combineKnownStateSessions a a = a) := by
  refine ⟨fun a b => ?_, fun a b c => ?_, fun a => ?_⟩
  · refine Finmap.ext_lookup fun s => ?_
    simp only [combineKnownStateSessions_lookup]
    by_cases h : s ∈ a ∨ s ∈ b
    · have h' : s ∈ b ∨ s ∈ a := h.symm
      simp [h, h', Nat.max_comm]
    · have h' : ¬(s ∈ b ∨ s ∈ a) := fun hc => h hc.symm
      simp [h, h']
  · refine Finmap.ext_lookup fun s => ?_
    simp only [combineKnownStateSessions_lookup, combineKnownStateSessions_mem,
      jsOrZero_ite, ite_mem_max, or_assoc, Nat.max_assoc]
  · refine Finmap.ext_lookup fun s => ?_
    rw [combineKnownStateSessions_lookup]
    by_cases h : s ∈ a
    · obtain ⟨v, hv⟩ := Finmap.mem_iff.mp h
      simp [h, hv, jsOrZero]
    · simp [h, (Finmap.lookup_eq_none.mpr h).symm]

/-!
## CoValueCore loading state machine

The CoValueCore implementation (`coValueCore.ts`) is not part of the
source tree here; only its test file is.  The definitions below are
therefore modelled from the specification (§3 data model, §4.3 CoValueCore
transition table, §4.5 SyncManager broadcast rule, §7 error kinds,
§8 testable properties), with the test file used as a sanity check on the
scenarios.
-/

abbrev PeerID := String

abbrev CoValueID := Nat

/-- Modelled from the spec: the closed set of CoValue types in §3. -/
inductive CoValueType
  | comap
  | colist
  | costream
  | binary
  | group
  | account
  deriving DecidableEq

/-- Modelled from the spec: the write-authority ruleset of a header (§3). -/
inductive Ruleset
  | unsafeAllowAll
  | ownedByGroup (group : CoValueID)
  | groupSelf
  deriving DecidableEq

/-- Modelled from the spec: `CoValueHeader = {type, ruleset, meta,
uniqueness}` (§3); `meta` and the `uniqueness` nonce are opaque here. -/
structure CoValueHeader where
  type : CoValueType
  ruleset : Ruleset
  meta : Option Nat
  uniqueness : Option Nat
  deriving DecidableEq

/-- Modelled from the spec: a transaction payload is opaque to the loading
state machine (§3). -/
abbrev Transaction := Nat

/-- Modelled from the spec: `VerifiedState = {header, sessions}` where each
session log is a contiguous verified prefix (§3, §4.2); the log contents are
opaque to the loading state machine, only their lengths feed `knownState`. -/
structure VerifiedState where
  id : CoValueID
  header : CoValueHeader
  sessions : List (SessionID × List Transaction)
  deriving DecidableEq

/-- Modelled from the spec: `KnownState = {id, header: bool, sessions}`
(§3). -/
structure CoValueKnownState where
  id : CoValueID
  header : Bool
  sessions : Sessions
  deriving DecidableEq

/-- Modelled from the spec: `fromHeader(header)` constructs an
empty-sessions verified state bound to a header (§4.2); the id is the one
the header hashed to. -/
def VerifiedState.fromHeader (i : CoValueID) (h : CoValueHeader) :
    VerifiedState :=
  ⟨i, h, []⟩

/-- Per-session transaction counts of a session-log list. -/
def sessionLogCounts (l : List (SessionID × List Transaction)) : Sessions :=
  l.foldl (fun acc q => acc.insert q.1 q.2.length) ∅

/-- Modelled from the spec: `knownState()` is the derived view with
`header = true` and `sessions[s] = length(log_s)` (§4.2). -/
def VerifiedState.knownState (v : VerifiedState) : CoValueKnownState :=
  ⟨v.id, true, sessionLogCounts v.sessions⟩

/-- Modelled from the spec: wire message actions (§6). -/
inductive SyncAction
  | load
  | known
  | content
  | done
  deriving DecidableEq

/-- Modelled from the spec: the `{action: "load", id, header, sessions}`
wire message (§6); only `load` messages are produced by the loading state
machine. -/
structure SyncMessage where
  action : SyncAction
  id : CoValueID
  header : Bool
  sessions : Sessions
  deriving DecidableEq

/-- The `{action: "load", ...knownState}` message. -/
def loadMsg (ks : CoValueKnownState) : SyncMessage :=
  ⟨.load, ks.id, ks.header, ks.sessions⟩

/-- Modelled from the spec: the CoValueCore lifecycle states (§4.3);
`errored` is listed in §4.3 but never produced by the transition table. -/
inductive LoadingState
  | unknown
  | loading
  | available
  | unavailable
  | errored
  deriving DecidableEq

/-- Status of one solicited peer within the current load attempt:
`pending` until it responds, or closed / errored / not-found / past
deadline (§4.3 termination rule). -/
inductive PeerLoadStatus
  | pending
  | notFound
  | errored
  | closed
  | timedOut
  deriving DecidableEq

/-- Modelled from the spec: the PeerState capability set the core sees,
`{id, role, closed}` plus the outbound queue (§4.4); the queue itself is
modelled by the core's outbox log. -/
inductive PeerRole
  | server
  | client
  | storage
  deriving DecidableEq

structure Peer where
  id : PeerID
  role : PeerRole
  closed : Bool
  deriving DecidableEq

/-- Modelled from the spec: the CoValueCore state machine (§4.3).
`hashHeader` is the node's cryptographic context (out of scope, an
arbitrary function); `solicited` records the peers contacted during the
current load attempt with their status; `outbox` logs every outbound
message in order; `waiting` / `delivered` model the one-shot observer
channel of `waitForAvailableOrUnavailable` (§4.3 observer protocol),
`nextObserver` supplying fresh observer tokens. -/
structure CoValueCore where
  id : CoValueID
  hashHeader : CoValueHeader → CoValueID
  loadingState : LoadingState
  verified : Option VerifiedState
  solicited : List (PeerID × PeerLoadStatus)
  outbox : List (PeerID × SyncMessage)
  waiting : List Nat
  delivered : List (Nat × Option VerifiedState)
  nextObserver : Nat

/-- Modelled from the spec: `fromID(id, node)` creates a core in state
`unknown` (§4.3, §6). -/
def CoValueCore.fromID (i : CoValueID) (hash : CoValueHeader → CoValueID) :
    CoValueCore :=
  { id := i, hashHeader := hash, loadingState := .unknown, verified := none,
    solicited := [], outbox := [], waiting := [], delivered := [],
    nextObserver := 0 }

/-- The pending set: solicited peers that are neither closed, errored,
not-found, nor past deadline (§4.3 termination rule). -/
def pendingPeers (c : CoValueCore) : List PeerID :=
  (c.solicited.filter fun q => q.2 = PeerLoadStatus.pending).map
    fun q => q.1

/-- Flush all waiting observers with the given outcome, in registration
order (§4.3 observer protocol, design note on one-shot broadcast). -/
def resolveObservers (c : CoValueCore) (outcome : Option VerifiedState) :
    CoValueCore :=
  { c with waiting := [],
           delivered := c.delivered ++ c.waiting.map fun t => (t, outcome) }

/-- Modelled from the spec: termination rule (b) for `loading` — when the
pending set is empty the core becomes `unavailable` and observers are
notified with a null verified state (§4.3). -/
def checkTermination (c : CoValueCore) : CoValueCore :=
  if c.loadingState = .loading ∧ pendingPeers c = [] then
    resolveObservers { c with loadingState := .unavailable } none
  else c

/-- Record a new status for one solicited peer. -/
def setPeerStatus (c : CoValueCore) (p : PeerID) (st : PeerLoadStatus) :
    CoValueCore :=
  { c with solicited := c.solicited.map fun q =>
      if q.1 = p then (q.1, st) else q }

/-- Modelled from the spec: `markNotFoundInPeer(p)` records the not-found
response and applies the termination rule; only meaningful on a `loading`
core (§4.3 transition table). -/
def markNotFoundInPeer (c : CoValueCore) (p : PeerID) : CoValueCore :=
  if c.loadingState = .loading then
    checkTermination (setPeerStatus c p .notFound)
  else c

/-- Modelled from the spec: `markErrored(p, err)` records a per-peer error
and applies the same termination rule (§4.3); the error payload is opaque
to the state machine. -/
def markErrored (c : CoValueCore) (p : PeerID) : CoValueCore :=
  if c.loadingState = .loading then
    checkTermination (setPeerStatus c p .errored)
  else c

/-- Modelled from the spec: the per-peer deadline elapsing is equivalent
to not-found for that peer (§4.3, §5 timeouts). -/
def timeoutPeer (c : CoValueCore) (p : PeerID) : CoValueCore :=
  if c.loadingState = .loading then
    checkTermination (setPeerStatus c p .timedOut)
  else c

/-- Modelled from the spec: in any state, a peer becoming closed is
removed from the pending set and may trigger the termination rule
(§4.3 last table row). -/
def markPeerClosed (c : CoValueCore) (p : PeerID) : CoValueCore :=
  checkTermination (setPeerStatus c p .closed)

/-- Modelled from the spec: `HeaderMismatch` — the provided header does
not hash to the expected ID; surfaced to the caller with no state change
(§7). -/
inductive ProvideHeaderError
  | headerMismatch
  deriving DecidableEq

/-- Modelled from the spec: when a core becomes `available`, the known
state is broadcast to every other peer that had been solicited for this
CoValue but did not supply the content, excluding peers already errored or
closed (§4.5). -/
def broadcastTargets (c : CoValueCore) (origin : Option PeerID) :
    List PeerID :=
  (c.solicited.filter fun q =>
      decide (some q.1 ≠ origin ∧ q.2 ≠ PeerLoadStatus.errored ∧
        q.2 ≠ PeerLoadStatus.closed)).map
    fun q => q.1

/-- Modelled from the spec: `provideHeader(h)` (§4.3 transition table,
§4.5, §7).  The header's hash is compared to the core's ID; on mismatch
`HeaderMismatch` is surfaced with no transition.  On an `available` core a
repeat of the installed header is an idempotent success and any other
header fails.  Otherwise the core transitions to `available`: the verified
state is installed, its known state is broadcast to the other solicited
peers (excluding the supplying peer `origin` and peers errored or closed),
and observers are notified. -/
def provideHeader (c : CoValueCore) (h : CoValueHeader)
    (origin : Option PeerID) : CoValueCore × Option ProvideHeaderError :=
  if c.hashHeader h ≠ c.id then (c, some .headerMismatch)
  else
    match c.loadingState with
    | .available =>
      match c.verified with
      | some v => if v.header = h then (c, none) else (c, some .headerMismatch)
      | none => (c, some .headerMismatch)
    | _ =>
      let v := VerifiedState.fromHeader c.id h
      let msg := loadMsg v.knownState
      (resolveObservers
        { c with loadingState := .available, verified := some v,
                 outbox := c.outbox ++
                   (broadcastTargets c origin).map fun q => (q, msg) }
        (some v), none)

/-- Modelled from the spec: `waitForAvailableOrUnavailable()` (§4.3
observer protocol).  On a settled core the fresh observer sees the outcome
synchronously; otherwise it is registered and will be delivered at
resolution time. -/
def waitForAvailableOrUnavailable (c : CoValueCore) : CoValueCore :=
  match c.loadingState with
  | .available =>
    { c with delivered := c.delivered ++ [(c.nextObserver, c.verified)],
             nextObserver := c.nextObserver + 1 }
  | .unavailable =>
    { c with delivered := c.delivered ++ [(c.nextObserver, none)],
             nextObserver := c.nextObserver + 1 }
  | _ =>
    { c with waiting := c.waiting ++ [c.nextObserver],
             nextObserver := c.nextObserver + 1 }

/-- The known state a load solicitation carries: the verified state's
known state when installed, else `{id, header: false, sessions: {}}`
(§3, §6). -/
def currentKnownState (c : CoValueCore) : CoValueKnownState :=
  match c.verified with
  | some v => v.knownState
  | none => ⟨c.id, false, ∅⟩

/-- Modelled from the spec: `loadFromPeers(peers)` on an `unknown` core
enqueues a load message to each non-closed peer and marks it pending —
closed peers are never contacted (§4.3 skip policy) — then applies the
termination rule, so that with no contactable peer the core is immediately
`unavailable`. -/
def loadFromPeers (c : CoValueCore) (peers : List Peer) : CoValueCore :=
  if c.loadingState = .unknown then
    let ps := peers.filter fun p => !p.closed
    let msg := loadMsg (currentKnownState c)
    checkTermination
      { c with loadingState := .loading,
               solicited := c.solicited ++ ps.map fun p =>
                 (p.id, PeerLoadStatus.pending),
               outbox := c.outbox ++ ps.map fun p => (p.id, msg) }
  else c

/-- The events a CoValueCore reacts to (§4.3, §6). -/
inductive CoreEvent
  | waitFor
  | load (peers : List Peer)
  | notFoundIn (p : PeerID)
  | erroredIn (p : PeerID)
  | timeoutIn (p : PeerID)
  | closePeer (p : PeerID)
  | provideHdr (h : CoValueHeader) (origin : Option PeerID)

def applyEvent (c : CoValueCore) : CoreEvent → CoValueCore
  | .waitFor => waitForAvailableOrUnavailable c
  | .load ps => loadFromPeers c ps
  | .notFoundIn p => markNotFoundInPeer c p
  | .erroredIn p => markErrored c p
  | .timeoutIn p => timeoutPeer c p
  | .closePeer p => markPeerClosed c p
  | .provideHdr h o => (provideHeader c h o).1

def runEvents (c : CoValueCore) (es : List CoreEvent) : CoValueCore :=
  es.foldl applyEvent c

/-- The four failure-side events of the loading termination rule:
not-found, errored, deadline elapsed, peer closure (§4.3). -/
def CoreEvent.isPeerFailure : CoreEvent → Bool
  | .notFoundIn _ => true
  | .erroredIn _ => true
  | .timeoutIn _ => true
  | .closePeer _ => true
  | _ => false

lemma setPeerStatus_loadingState (c : CoValueCore) (p : PeerID)
    (st : PeerLoadStatus) :
    (setPeerStatus c p st).loadingState = c.loadingState := rfl

lemma pendingPeers_setPeerStatus_nil (c : CoValueCore) (p : PeerID)
    (st : PeerLoadStatus) (hst : st ≠ .pending)
    (h : pendingPeers c = []) : pendingPeers (setPeerStatus c p st) = [] := by
  simp only [pendingPeers, setPeerStatus, List.filter_map,
    List.map_eq_nil_iff, List.filter_eq_nil_iff] at h ⊢
  intro q hq
  by_cases hqp : q.1 = p
  · simp [Function.comp, hqp, hst]
  · have := h q hq
    simp only [Function.comp, if_neg hqp, decide_eq_true_eq] at this ⊢
    exact this

lemma checkTermination_of_pending_ne (c : CoValueCore)
    (h : pendingPeers c ≠ []) : checkTermination c = c := by
  rw [checkTermination, if_neg]
  intro hc
  exact h hc.2

lemma checkTermination_of_not_loading (c : CoValueCore)
    (h : c.loadingState ≠ .loading) : checkTermination c = c := by
  rw [checkTermination, if_neg]
  intro hc
  exact h hc.1

lemma checkTermination_of_loading_nil (c : CoValueCore)
    (hs : c.loadingState = .loading) (hp : pendingPeers c = []) :
    checkTermination c =
      resolveObservers { c with loadingState := .unavailable } none := by
  rw [checkTermination, if_pos ⟨hs, hp⟩]

lemma checkTermination_outbox (c : CoValueCore) :
    (checkTermination c).outbox = c.outbox := by
  rw [checkTermination]
  split <;> rfl

lemma checkTermination_solicited (c : CoValueCore) :
    (checkTermination c).solicited = c.solicited := by
  rw [checkTermination]
  split <;> rfl

/-- Modelled from the spec: the metrics surface is a labeled gauge of the
CoValue loading-state population (§2, §4.3 metrics).  A label has no
recorded value until first touched; each adjustment records
`current-or-zero plus delta`. -/
def Gauges := LoadingState → Option Int

def gaugeAdjust (g : Gauges) (lab : LoadingState) (d : Int) : Gauges :=
  fun x => if x = lab then some ((g lab).getD 0 + d) else g x

/-- Modelled from the spec: a LocalNode-level view for the metrics
invariant — the live CoValueCores together with the state-label gauges
(§4.6, §4.3 metrics). -/
structure NodeSystem where
  cores : List CoValueCore
  gauges : Gauges

/-- Node-level events: creating a core via `fromID` (which increments the
`unknown` gauge only), or one of the per-core events applied to the core
at a given registry index (which, on a state transition, decrements the
old state's gauge and increments the new state's). -/
inductive SysEvent
  | createCore (i : CoValueID) (hash : CoValueHeader → CoValueID)
  | coreEvent (idx : Nat) (e : CoreEvent)

/-- Apply a per-core event at a registry index, with the gauge updates of
§4.3: on a state transition decrement the old label and increment the
new; no gauge change when the state is unchanged. -/
def stepCore (s : NodeSystem) (idx : Nat) (e : CoreEvent) : NodeSystem :=
  match s.cores[idx]? with
  | none => s
  | some c =>
    { cores := s.cores.set idx (applyEvent c e),
      gauges :=
        if (applyEvent c e).loadingState = c.loadingState then s.gauges
        else gaugeAdjust (gaugeAdjust s.gauges c.loadingState (-1))
          (applyEvent c e).loadingState 1 }

def stepSys (s : NodeSystem) : SysEvent → NodeSystem
  | .createCore i hash =>
    { cores := s.cores ++ [CoValueCore.fromID i hash],
      gauges := gaugeAdjust s.gauges .unknown 1 }
  | .coreEvent idx e => stepCore s idx e

def emptySys : NodeSystem := { cores := [], gauges := fun _ => none }

def runSys (es : List SysEvent) : NodeSystem := es.foldl stepSys emptySys

/-- Number of live cores currently in the given state. -/
def countIn (s : NodeSystem) (lab : LoadingState) : Nat :=
  s.cores.countP fun c => c.loadingState = lab

/-- The metrics sum across the four loading-state labels of §4.3. -/
def gaugeSum (g : Gauges) : Int :=
  (g .unknown).getD 0 + (g .loading).getD 0 + (g .available).getD 0 +
    (g .unavailable).getD 0

/-- Per-label gauge correctness plus the absence of `errored` cores: the
inductive invariant behind the metrics claims. -/
def sysInv (s : NodeSystem) : Prop :=
  (∀ lab : LoadingState, ((s.gauges lab).getD 0 : Int) =
    (countIn s lab : Int)) ∧
  (∀ c ∈ s.cores, c.loadingState ≠ .errored)

/-- A core currently in state `lab` forces the gauge for `lab` to be
recorded. -/
def gaugeCoverInv (lab : LoadingState) (s : NodeSystem) : Prop :=
  ∀ c ∈ s.cores, c.loadingState = lab → s.gauges lab ≠ none

/-- The outcome a settled core reports to observers: the installed
verified state when `available`, null when `unavailable` (and null in the
unsettled states, where it is never reported). -/
def settledOutcome (c : CoValueCore) : Option VerifiedState :=
  if c.loadingState = .available then c.verified else none

/-- Observer bookkeeping invariant: waiting and delivered observer tokens
are below the freshness counter, and no token occurs twice across the
waiting list and the delivered log — every future resolves at most
once. -/
def observerInv (c : CoValueCore) : Prop :=
  (∀ t ∈ c.waiting, t < c.nextObserver) ∧
  (∀ q ∈ c.delivered, q.1 < c.nextObserver) ∧
  (c.waiting ++ c.delivered.map Prod.fst).Nodup

/-- Invariant of a load attempt under failure events: the core is in
`loading` or `unavailable`, it is `loading` only while some peer is still
pending, and it is `unavailable` only once the pending set is empty. -/
def loadingPhaseInv (c : CoValueCore) : Prop :=
  (c.loadingState = .loading ∨ c.loadingState = .unavailable) ∧
  (c.loadingState = .loading → pendingPeers c ≠ []) ∧
  (c.loadingState = .unavailable → pendingPeers c = [])

lemma loadingPhaseInv_checkSet (c : CoValueCore) (p : PeerID)
    (st : PeerLoadStatus) (hs : c.loadingState = .loading) :
    loadingPhaseInv (checkTermination (setPeerStatus c p st)) := by
  have hs' : (setPeerStatus c p st).loadingState = .loading := hs
  by_cases hp : pendingPeers (setPeerStatus c p st) = []
  · rw [checkTermination_of_loading_nil _ hs' hp]
    refine ⟨Or.inr rfl, fun hl => ?_, fun _ => hp⟩
    cases hl
  · rw [checkTermination_of_pending_ne _ hp]
    refine ⟨Or.inl hs', fun _ => hp, fun hu => ?_⟩
    rw [hs'] at hu
    cases hu

lemma loadingPhaseInv_closed (c : CoValueCore) (p : PeerID)
    (hP : loadingPhaseInv c) :
    loadingPhaseInv (markPeerClosed c p) := by
  rcases hP.1 with hs | hs
  · exact loadingPhaseInv_checkSet c p .closed hs
  · rw [markPeerClosed]
    have hs' : (setPeerStatus c p .closed).loadingState ≠ .loading := by
      rw [setPeerStatus_loadingState, hs]
      intro hc
      cases hc
    rw [checkTermination_of_not_loading _ hs']
    have hp : pendingPeers (setPeerStatus c p .closed) = [] :=
      pendingPeers_setPeerStatus_nil c p .closed (by intro hc; cases hc)
        (hP.2.2 hs)
    refine ⟨Or.inr hs, fun hl => absurd hl hs', fun _ => hp⟩

lemma loadingPhaseInv_guardedMark (c : CoValueCore) (p : PeerID)
    (st : PeerLoadStatus) (hP : loadingPhaseInv c) :
    loadingPhaseInv
      (if c.loadingState = .loading then
        checkTermination (setPeerStatus c p st) else c) := by
  by_cases hs : c.loadingState = .loading
  · rw [if_pos hs]
    exact loadingPhaseInv_checkSet c p st hs
  · rw [if_neg hs]
    exact hP

lemma loadingPhaseInv_step (c : CoValueCore) (e : CoreEvent)
    (he : e.isPeerFailure = true) (hP : loadingPhaseInv c) :
    loadingPhaseInv (applyEvent c e) := by
  cases e with
  | notFoundIn p => exact loadingPhaseInv_guardedMark c p .notFound hP
  | erroredIn p => exact loadingPhaseInv_guardedMark c p .errored hP
  | timeoutIn p => exact loadingPhaseInv_guardedMark c p .timedOut hP
  | closePeer p => exact loadingPhaseInv_closed c p hP
  | waitFor => cases he
  | load ps => cases he
  | provideHdr h o => cases he

lemma loadingPhaseInv_run (c : CoValueCore) (es : List CoreEvent)
    (hev : ∀ e ∈ es, e.isPeerFailure = true) (hP : loadingPhaseInv c) :
    loadingPhaseInv (runEvents c es) := by
  induction es generalizing c with
  | nil => exact hP
  | cons e es ih =>
    rw [runEvents, List.foldl_cons]
    exact ih (applyEvent c e) (fun x hx => hev x (List.mem_cons_of_mem e hx))
      (loadingPhaseInv_step c e (hev e (List.mem_cons_self e es)) hP)

lemma provideHeader_not_available (c : CoValueCore) (h : CoValueHeader)
    (o : Option PeerID) (hh : c.hashHeader h = c.id)
    (hs : c.loadingState ≠ .available) :
    provideHeader c h o =
      (resolveObservers
        { c with loadingState := .available,
                 verified := some (VerifiedState.fromHeader c.id h),
                 outbox := c.outbox ++ (broadcastTargets c o).map fun q =>
                   (q, loadMsg (VerifiedState.fromHeader c.id h).knownState) }
        (some (VerifiedState.fromHeader c.id h)), none) := by
  have hcond : ¬c.hashHeader h ≠ c.id := fun hc => hc hh
  cases hst : c.loadingState with
  | available => exact absurd hst hs
  | unknown => simp [provideHeader, hcond, hst]
  | loading => simp [provideHeader, hcond, hst]
  | unavailable => simp [provideHeader, hcond, hst]
  | errored => simp [provideHeader, hcond, hst]

lemma provideHeader_available_fst (c : CoValueCore) (h : CoValueHeader)
    (o : Option PeerID) (hst : c.loadingState = .available) :
    (provideHeader c h o).1 = c := by
  by_cases hmis : c.hashHeader h ≠ c.id
  · rw [provideHeader, if_pos hmis]
  · rw [provideHeader, if_neg hmis]
    simp only [hst]
    cases hv : c.verified with
    | none => rfl
    | some v =>
      by_cases hdr : v.header = h
      · simp [hdr]
      · simp [hdr]

lemma delivered_checkTermination (c : CoValueCore) :
    ∃ xs, (checkTermination c).delivered = c.delivered ++ xs ∧
      ∀ q ∈ xs, q.2 = settledOutcome (checkTermination c) := by
  rw [checkTermination]
  split
  · refine ⟨c.waiting.map fun t => (t, none), rfl, fun q hq => ?_⟩
    obtain ⟨t, _, ht⟩ := List.mem_map.mp hq
    rw [← ht]
    rfl
  · exact ⟨[], (List.append_nil _).symm, fun q hq => absurd hq
      (List.not_mem_nil q)⟩

lemma delivered_applyEvent (c : CoValueCore) (e : CoreEvent) :
    ∃ xs, (applyEvent c e).delivered = c.delivered ++ xs ∧
      ∀ q ∈ xs, q.2 = settledOutcome (applyEvent c e) := by
  cases e with
  | waitFor =>
    simp only [applyEvent]
    cases hst : c.loadingState with
    | available =>
      refine ⟨[(c.nextObserver, c.verified)], ?_, fun q hq => ?_⟩
      · simp [waitForAvailableOrUnavailable, hst]
      · rw [List.mem_singleton] at hq
        subst hq
        simp [waitForAvailableOrUnavailable, hst, settledOutcome]
    | unavailable =>
      refine ⟨[(c.nextObserver, none)], ?_, fun q hq => ?_⟩
      · simp [waitForAvailableOrUnavailable, hst]
      · rw [List.mem_singleton] at hq
        subst hq
        simp [waitForAvailableOrUnavailable, hst, settledOutcome]
    | unknown =>
      exact ⟨[], by simp [waitForAvailableOrUnavailable, hst],
        fun q hq => absurd hq (List.not_mem_nil q)⟩
    | loading =>
      exact ⟨[], by simp [waitForAvailableOrUnavailable, hst],
        fun q hq => absurd hq (List.not_mem_nil q)⟩
    | errored =>
      exact ⟨[], by simp [waitForAvailableOrUnavailable, hst],
        fun q hq => absurd hq (List.not_mem_nil q)⟩
  | load ps =>
    simp only [applyEvent]
    rw [loadFromPeers]
    split
    · exact delivered_checkTermination _
    · exact ⟨[], (List.append_nil _).symm, fun q hq => absurd hq
        (List.not_mem_nil q)⟩
  | notFoundIn p =>
    simp only [applyEvent]
    rw [markNotFoundInPeer]
    split
    · exact delivered_checkTermination _
    · exact ⟨[], (List.append_nil _).symm, fun q hq => absurd hq
        (List.not_mem_nil q)⟩
  | erroredIn p =>
    simp only [applyEvent]
    rw [markErrored]
    split
    · exact delivered_checkTermination _
    · exact ⟨[], (List.append_nil _).symm, fun q hq => absurd hq
        (List.not_mem_nil q)⟩
  | timeoutIn p =>
    simp only [applyEvent]
    rw [timeoutPeer]
    split
    · exact delivered_checkTermination _
    · exact ⟨[], (List.append_nil _).symm, fun q hq => absurd hq
        (List.not_mem_nil q)⟩
  | closePeer p =>
    exact delivered_checkTermination _
  | provideHdr h o =>
    simp only [applyEvent]
    by_cases hmis : c.hashHeader h ≠ c.id
    · rw [provideHeader, if_pos hmis]
      exact ⟨[], (List.append_nil _).symm, fun q hq => absurd hq
        (List.not_mem_nil q)⟩
    · by_cases hav : c.loadingState = .available
      · rw [provideHeader_available_fst c h o hav]
        exact ⟨[], (List.append_nil _).symm, fun q hq => absurd hq
          (List.not_mem_nil q)⟩
      · rw [provideHeader_not_available c h o (not_not.mp hmis) hav]
        refine ⟨c.waiting.map fun t =>
          (t, some (VerifiedState.fromHeader c.id h)), rfl, fun q hq => ?_⟩
        obtain ⟨t, _, ht⟩ := List.mem_map.mp hq
        rw [← ht]
        rfl

lemma gaugeAdjust_same (g : Gauges) (lab : LoadingState) (d : Int) :
    gaugeAdjust g lab d lab = some ((g lab).getD 0 + d) := by
  simp [gaugeAdjust]

lemma gaugeAdjust_other (g : Gauges) (lab : LoadingState) (d : Int)
    (x : LoadingState) (h : x ≠ lab) : gaugeAdjust g lab d x = g x := by
  simp [gaugeAdjust, h]

lemma checkTermination_loadingState (c : CoValueCore) :
    (checkTermination c).loadingState = c.loadingState ∨
    (checkTermination c).loadingState = .unavailable := by
  rw [checkTermination]
  split
  · exact Or.inr rfl
  · exact Or.inl rfl

lemma waitFor_loadingState (c : CoValueCore) :
    (waitForAvailableOrUnavailable c).loadingState = c.loadingState := by
  cases hst : c.loadingState <;>
    simp [waitForAvailableOrUnavailable, hst]

lemma applyEvent_loadingState (c : CoValueCore) (e : CoreEvent) :
    (applyEvent c e).loadingState = c.loadingState ∨
    (applyEvent c e).loadingState = .loading ∨
    (applyEvent c e).loadingState = .available ∨
    (applyEvent c e).loadingState = .unavailable := by
  cases e with
  | waitFor => exact Or.inl (waitFor_loadingState c)
  | load ps =>
    simp only [applyEvent]
    rw [loadFromPeers]
    split
    · rcases checkTermination_loadingState _ with h | h
      · exact Or.inr (Or.inl h)
      · exact Or.inr (Or.inr (Or.inr h))
    · exact Or.inl rfl
  | notFoundIn p =>
    simp only [applyEvent]
    rw [markNotFoundInPeer]
    split
    · rcases checkTermination_loadingState _ with h | h
      · exact Or.inl h
      · exact Or.inr (Or.inr (Or.inr h))
    · exact Or.inl rfl
  | erroredIn p =>
    simp only [applyEvent]
    rw [markErrored]
    split
    · rcases checkTermination_loadingState _ with h | h
      · exact Or.inl h
      · exact Or.inr (Or.inr (Or.inr h))
    · exact Or.inl rfl
  | timeoutIn p =>
    simp only [applyEvent]
    rw [timeoutPeer]
    split
    · rcases checkTermination_loadingState _ with h | h
      · exact Or.inl h
      · exact Or.inr (Or.inr (Or.inr h))
    · exact Or.inl rfl
  | closePeer p =>
    simp only [applyEvent]
    rw [markPeerClosed]
    rcases checkTermination_loadingState (setPeerStatus c p .closed)
      with h | h
    · exact Or.inl h
    · exact Or.inr (Or.inr (Or.inr h))
  | provideHdr h o =>
    simp only [applyEvent]
    by_cases hmis : c.hashHeader h ≠ c.id
    · rw [provideHeader, if_pos hmis]
      exact Or.inl rfl
    · by_cases hav : c.loadingState = .available
      · rw [provideHeader_available_fst c h o hav]
        exact Or.inl rfl
      · rw [provideHeader_not_available c h o (not_not.mp hmis) hav]
        exact Or.inr (Or.inr (Or.inl rfl))

lemma applyEvent_ne_errored (c : CoValueCore) (e : CoreEvent)
    (hc : c.loadingState ≠ .errored) :
    (applyEvent c e).loadingState ≠ .errored := by
  rcases applyEvent_loadingState c e with h | h | h | h
  · rw [h]
    exact hc
  · rw [h]
    intro hx
    cases hx
  · rw [h]
    intro hx
    cases hx
  · rw [h]
    intro hx
    cases hx

lemma countP_set_of_getElem {α : Type} (l : List α) (i : Nat) (a x : α)
    (p : α → Bool) (h : l[i]? = some a) :
    (l.set i x).countP p + (if p a then 1 else 0) =
      l.countP p + (if p x then 1 else 0) := by
  obtain ⟨hlt, hget⟩ := List.getElem?_eq_some.mp h
  obtain ⟨l₁, l₂, hl, hlen, hset⟩ := @List.exists_of_set α i x l hlt
  rw [hget] at hl
  rw [hset, hl]
  simp only [List.countP_append, List.countP_cons]
  by_cases hpa : p a = true <;> by_cases hpx : p x = true <;>
    simp [hpa, hpx] <;> omega

lemma mem_of_getElem_eq {α : Type} {l : List α} {i : Nat} {a : α}
    (h : l[i]? = some a) : a ∈ l := by
  obtain ⟨hlt, hget⟩ := List.getElem?_eq_some.mp h
  rw [← hget]
  exact List.getElem_mem hlt

lemma stepCore_none {s : NodeSystem} {idx : Nat} {e : CoreEvent}
    (h : s.cores[idx]? = none) : stepCore s idx e = s := by
  simp only [stepCore, h]

lemma stepCore_some {s : NodeSystem} {idx : Nat} {e : CoreEvent}
    {c : CoValueCore} (h : s.cores[idx]? = some c) :
    stepCore s idx e =
      { cores := s.cores.set idx (applyEvent c e),
        gauges :=
          if (applyEvent c e).loadingState = c.loadingState then s.gauges
          else gaugeAdjust (gaugeAdjust s.gauges c.loadingState (-1))
            (applyEvent c e).loadingState 1 } := by
  simp only [stepCore, h]

lemma sysInv_step (s : NodeSystem) (ev : SysEvent) (hI : sysInv s) :
    sysInv (stepSys s ev) := by
  obtain ⟨hg, he⟩ := hI
  cases ev with
  | createCore i hash =>
    simp only [stepSys]
    refine ⟨fun lab => ?_, fun x hx => ?_⟩
    · show ((gaugeAdjust s.gauges .unknown 1 lab).getD 0 : Int) =
        ((s.cores ++ [CoValueCore.fromID i hash]).countP
          (fun x => decide (x.loadingState = lab)) : Int)
      have hcount : (s.cores ++ [CoValueCore.fromID i hash]).countP
          (fun x => decide (x.loadingState = lab)) =
          countIn s lab +
            (if LoadingState.unknown = lab then 1 else 0) := by
        simp only [countIn, List.countP_append, List.countP_cons,
          List.countP_nil, CoValueCore.fromID, decide_eq_true_eq]
        omega
      rw [hcount]
      by_cases hlab : lab = .unknown
      · subst hlab
        rw [gaugeAdjust_same]
        have := hg LoadingState.unknown
        simp only [Option.getD_some, if_pos rfl]
        push_cast
        omega
      · rw [gaugeAdjust_other _ _ _ _ hlab,
          if_neg (fun h : LoadingState.unknown = lab => hlab h.symm)]
        have := hg lab
        push_cast
        omega
    · rcases List.mem_append.mp hx with h1 | h1
      · exact he x h1
      · rw [List.mem_singleton.mp h1]
        intro hc
        cases hc
  | coreEvent idx e =>
    show sysInv (stepCore s idx e)
    cases hidx : s.cores[idx]? with
    | none =>
      rw [stepCore_none hidx]
      exact ⟨hg, he⟩
    | some c =>
      rw [stepCore_some hidx]
      have hcmem : c ∈ s.cores := mem_of_getElem_eq hidx
      refine ⟨fun lab => ?_, fun x hx => ?_⟩
      · have h1 := countP_set_of_getElem s.cores idx c (applyEvent c e)
          (fun x => decide (x.loadingState = lab)) hidx
        show (((if (applyEvent c e).loadingState = c.loadingState
            then s.gauges
            else gaugeAdjust (gaugeAdjust s.gauges c.loadingState (-1))
              (applyEvent c e).loadingState 1) lab).getD 0 : Int) =
          ((s.cores.set idx (applyEvent c e)).countP
            (fun x => decide (x.loadingState = lab)) : Int)
        have hgs := hg lab
        rw [countIn] at hgs
        by_cases hst : (applyEvent c e).loadingState = c.loadingState
        · rw [if_pos hst]
          simp only [decide_eq_true_eq] at h1
          rw [hst] at h1
          have hcnt : (s.cores.set idx (applyEvent c e)).countP
              (fun x => decide (x.loadingState = lab)) =
              s.cores.countP (fun x => decide (x.loadingState = lab)) := by
            by_cases hcl : c.loadingState = lab <;> simp [hcl] at h1 <;>
              omega
          rw [hcnt]
          exact hgs
        · rw [if_neg hst]
          by_cases hnew : lab = (applyEvent c e).loadingState
          · have hc1 : ¬(c.loadingState = lab) := fun hcl =>
              hst (hnew.symm.trans hcl.symm)
            have hc2 : (applyEvent c e).loadingState = lab := hnew.symm
            simp only [decide_eq_true_eq, if_neg hc1, if_pos hc2] at h1
            have hgauge : gaugeAdjust (gaugeAdjust s.gauges
                c.loadingState (-1)) (applyEvent c e).loadingState 1 lab =
                some ((s.gauges lab).getD 0 + 1) := by
              rw [hnew, gaugeAdjust_same,
                gaugeAdjust_other _ _ _ _ hst]
            rw [hgauge]
            simp only [Option.getD_some]
            omega
          · by_cases hold : lab = c.loadingState
            · have hc1 : c.loadingState = lab := hold.symm
              have hc2 : ¬((applyEvent c e).loadingState = lab) :=
                fun hcl => hnew hcl.symm
              simp only [decide_eq_true_eq, if_pos hc1, if_neg hc2] at h1
              have hgauge : gaugeAdjust (gaugeAdjust s.gauges
                  c.loadingState (-1)) (applyEvent c e).loadingState 1
                    lab = some ((s.gauges lab).getD 0 + (-1)) := by
                rw [gaugeAdjust_other _ _ _ _ (fun hc : lab =
                  (applyEvent c e).loadingState => hnew hc), hold,
                  gaugeAdjust_same, ← hold]
              rw [hgauge]
              simp only [Option.getD_some]
              omega
            · have hc1 : ¬(c.loadingState = lab) := fun hcl =>
                hold hcl.symm
              have hc2 : ¬((applyEvent c e).loadingState = lab) :=
                fun hcl => hnew hcl.symm
              simp only [decide_eq_true_eq, if_neg hc1, if_neg hc2] at h1
              have hgauge : gaugeAdjust (gaugeAdjust s.gauges
                  c.loadingState (-1)) (applyEvent c e).loadingState 1
                    lab = s.gauges lab := by
                rw [gaugeAdjust_other _ _ _ _ (fun hc : lab =
                  (applyEvent c e).loadingState => hnew hc),
                  gaugeAdjust_other _ _ _ _ (fun hc : lab =
                    c.loadingState => hold hc)]
              rw [hgauge]
              have : (s.cores.set idx (applyEvent c e)).countP
                  (fun x => decide (x.loadingState = lab)) =
                  s.cores.countP
                    (fun x => decide (x.loadingState = lab)) := by
                omega
              rw [this]
              exact hgs
      · rcases List.mem_or_eq_of_mem_set hx with h1 | h1
        · exact he x h1
        · rw [h1]
          exact applyEvent_ne_errored c e (he c hcmem)

lemma sysInv_foldl (es : List SysEvent) (s : NodeSystem) (h : sysInv s) :
    sysInv (es.foldl stepSys s) := by
  induction es generalizing s with
  | nil => exact h
  | cons e es ih =>
    rw [List.foldl_cons]
    exact ih _ (sysInv_step s e h)

lemma sysInv_run (es : List SysEvent) : sysInv (runSys es) :=
  sysInv_foldl es emptySys
    ⟨fun _ => rfl, fun c hc => absurd hc (List.not_mem_nil c)⟩

lemma stepSys_gauge_none (s : NodeSystem) (ev : SysEvent)
    (lab : LoadingState) (h : (stepSys s ev).gauges lab = none) :
    s.gauges lab = none := by
  cases ev with
  | createCore i hash =>
    simp only [stepSys] at h
    by_cases hlab : lab = .unknown
    · rw [hlab, gaugeAdjust_same] at h
      exact Option.noConfusion h
    · rwa [gaugeAdjust_other _ _ _ _ hlab] at h
  | coreEvent idx e =>
    cases hidx : s.cores[idx]? with
    | none =>
      rw [show stepSys s (.coreEvent idx e) = stepCore s idx e from rfl,
        stepCore_none hidx] at h
      exact h
    | some c =>
      rw [show stepSys s (.coreEvent idx e) = stepCore s idx e from rfl,
        stepCore_some hidx] at h
      dsimp only at h
      by_cases hst : (applyEvent c e).loadingState = c.loadingState
      · rwa [if_pos hst] at h
      · rw [if_neg hst] at h
        by_cases hnew : lab = (applyEvent c e).loadingState
        · rw [hnew, gaugeAdjust_same] at h
          exact Option.noConfusion h
        · rw [gaugeAdjust_other _ _ _ _ hnew] at h
          by_cases hold : lab = c.loadingState
          · rw [hold, gaugeAdjust_same] at h
            exact Option.noConfusion h
          · rwa [gaugeAdjust_other _ _ _ _ hold] at h

lemma foldl_gauge_none (evs : List SysEvent) (s : NodeSystem)
    (lab : LoadingState)
    (h : (evs.foldl stepSys s).gauges lab = none) : s.gauges lab = none := by
  induction evs generalizing s with
  | nil => exact h
  | cons e es ih =>
    rw [List.foldl_cons] at h
    exact stepSys_gauge_none s e lab (ih _ h)

lemma gaugeCoverInv_step (lab : LoadingState) (s : NodeSystem)
    (ev : SysEvent) (hI : gaugeCoverInv lab s) :
    gaugeCoverInv lab (stepSys s ev) := by
  cases ev with
  | createCore i hash =>
    intro x hx hxl
    simp only [stepSys] at hx ⊢
    by_cases hlab : lab = .unknown
    · rw [hlab, gaugeAdjust_same]
      simp
    · rw [gaugeAdjust_other _ _ _ _ hlab]
      rcases List.mem_append.mp hx with h1 | h1
      · exact hI x h1 hxl
      · rw [List.mem_singleton.mp h1] at hxl
        exact absurd hxl.symm hlab
  | coreEvent idx e =>
    cases hidx : s.cores[idx]? with
    | none =>
      rw [show stepSys s (.coreEvent idx e) = stepCore s idx e from rfl,
        stepCore_none hidx]
      exact hI
    | some c =>
      intro x hx hxl
      rw [show stepSys s (.coreEvent idx e) = stepCore s idx e from rfl,
        stepCore_some hidx] at hx ⊢
      by_cases hst : (applyEvent c e).loadingState = c.loadingState
      · show (if (applyEvent c e).loadingState = c.loadingState
            then s.gauges
            else gaugeAdjust (gaugeAdjust s.gauges c.loadingState (-1))
              (applyEvent c e).loadingState 1) lab ≠ none
        rw [if_pos hst]
        rcases List.mem_or_eq_of_mem_set hx with h1 | h1
        · exact hI x h1 hxl
        · have hcl : c.loadingState = lab := by
            rw [← hst, ← h1]
            exact hxl
          exact hI c (mem_of_getElem_eq hidx) hcl
      · show (if (applyEvent c e).loadingState = c.loadingState
            then s.gauges
            else gaugeAdjust (gaugeAdjust s.gauges c.loadingState (-1))
              (applyEvent c e).loadingState 1) lab ≠ none
        rw [if_neg hst]
        by_cases hnew : lab = (applyEvent c e).loadingState
        · rw [hnew, gaugeAdjust_same]
          simp
        · rw [gaugeAdjust_other _ _ _ _ hnew]
          by_cases hold : lab = c.loadingState
          · rw [hold, gaugeAdjust_same]
            simp
          · rw [gaugeAdjust_other _ _ _ _ hold]
            rcases List.mem_or_eq_of_mem_set hx with h1 | h1
            · exact hI x h1 hxl
            · rw [h1] at hxl
              exact absurd hxl.symm hnew

lemma mem_set_self {l : List CoValueCore} {idx : Nat} {c x : CoValueCore}
    (hidx : l[idx]? = some c) : x ∈ l.set idx x := by
  have hlt : idx < l.length := (List.getElem?_eq_some.mp hidx).1
  have hget : (l.set idx x)[idx]? = some x := by
    rw [List.getElem?_set, if_pos rfl, if_pos hlt]
  exact mem_of_getElem_eq hget

lemma stepSys_gauge_stays_none (s : NodeSystem) (ev : SysEvent)
    (lab : LoadingState) (hg : s.gauges lab = none)
    (hbefore : ∀ c ∈ s.cores, c.loadingState ≠ lab)
    (hafter : ∀ c ∈ (stepSys s ev).cores, c.loadingState ≠ lab) :
    (stepSys s ev).gauges lab = none := by
  cases ev with
  | createCore i hash =>
    have hnew : CoValueCore.fromID i hash ∈ (stepSys s
        (.createCore i hash)).cores := by
      simp [stepSys]
    have hlab : lab ≠ LoadingState.unknown := fun hc =>
      hafter (CoValueCore.fromID i hash) hnew (by rw [hc]; rfl)
    show gaugeAdjust s.gauges .unknown 1 lab = none
    rw [gaugeAdjust_other _ _ _ _ hlab]
    exact hg
  | coreEvent idx e =>
    cases hidx : s.cores[idx]? with
    | none =>
      rw [show stepSys s (.coreEvent idx e) = stepCore s idx e from rfl,
        stepCore_none hidx]
      exact hg
    | some c =>
      have hafter' := hafter
      rw [show stepSys s (.coreEvent idx e) = stepCore s idx e from rfl,
        stepCore_some hidx] at hafter' ⊢
      dsimp only at hafter' ⊢
      by_cases hst : (applyEvent c e).loadingState = c.loadingState
      · rw [if_pos hst]
        exact hg
      · rw [if_neg hst]
        have hnew : lab ≠ (applyEvent c e).loadingState := fun hc =>
          hafter' (applyEvent c e) (mem_set_self hidx) hc.symm
        have hold : lab ≠ c.loadingState := fun hc =>
          hbefore c (mem_of_getElem_eq hidx) hc.symm
        rw [gaugeAdjust_other _ _ _ _ hnew,
          gaugeAdjust_other _ _ _ _ hold]
        exact hg

lemma run_gauge_none_of_never (es : List SysEvent) (lab : LoadingState) :
    (∀ n : Nat, ∀ c ∈ (runSys (es.take n)).cores, c.loadingState ≠ lab) →
    (runSys es).gauges lab = none := by
  induction es using List.reverseRecOn with
  | nil => intro _; rfl
  | append_singleton es e ih =>
    intro h
    have hfull : ∀ c ∈ (runSys es).cores, c.loadingState ≠ lab := by
      have := h es.length
      rwa [List.take_append_of_le_length (Nat.le_refl _),
        List.take_length] at this
    have hes : ∀ n : Nat, ∀ c ∈ (runSys (es.take n)).cores,
        c.loadingState ≠ lab := by
      intro n
      by_cases hn : n ≤ es.length
      · have := h n
        rwa [List.take_append_of_le_length hn] at this
      · rw [List.take_of_length_le (Nat.le_of_not_le hn)]
        exact hfull
    have hprev : (runSys es).gauges lab = none := ih hes
    have hrun : runSys (es ++ [e]) = stepSys (runSys es) e := by
      rw [runSys, runSys, List.foldl_append]
      rfl
    have hafter : ∀ c ∈ (stepSys (runSys es) e).cores,
        c.loadingState ≠ lab := by
      have := h (es.length + 1)
      rwa [List.take_of_length_le (by simp), hrun] at this
    rw [hrun]
    exact stepSys_gauge_stays_none (runSys es) e lab hprev hfull hafter

lemma gaugeCoverInv_foldl (lab : LoadingState) (evs : List SysEvent)
    (s : NodeSystem) (hI : gaugeCoverInv lab s) :
    gaugeCoverInv lab (evs.foldl stepSys s) := by
  induction evs generalizing s with
  | nil => exact hI
  | cons e es ih =>
    rw [List.foldl_cons]
    exact ih _ (gaugeCoverInv_step lab s e hI)

lemma gaugeCoverInv_run (lab : LoadingState) (es : List SysEvent) :
    gaugeCoverInv lab (runSys es) :=
  gaugeCoverInv_foldl lab es emptySys
    (fun c hc _ => absurd hc (List.not_mem_nil c))

lemma length_eq_sum_counts (l : List CoValueCore)
    (h : ∀ c ∈ l, c.loadingState ≠ .errored) :
    l.length =
      l.countP (fun x => decide (x.loadingState = LoadingState.unknown)) +
      l.countP (fun x => decide (x.loadingState = LoadingState.loading)) +
      l.countP (fun x => decide (x.loadingState = LoadingState.available)) +
      l.countP (fun x =>
        decide (x.loadingState = LoadingState.unavailable)) := by
  induction l with
  | nil => rfl
  | cons c l ih =>
    have hc := h c (List.mem_cons_self c l)
    have ih' := ih fun x hx => h x (List.mem_cons_of_mem c hx)
    simp only [List.length_cons, List.countP_cons, decide_eq_true_eq]
    cases hst : c.loadingState with
    | errored => exact absurd hst hc
    | unknown => simp only [hst]; simp; omega
    | loading => simp only [hst]; simp; omega
    | available => simp only [hst]; simp; omega
    | unavailable => simp only [hst]; simp; omega

lemma nodup_append_singleton {l : List Nat} {n : Nat} (hl : l.Nodup)
    (hn : ∀ x ∈ l, x < n) : (l ++ [n]).Nodup := by
  rw [List.nodup_append]
  exact ⟨hl, List.nodup_singleton n, fun x hx hy => by
    rw [List.mem_singleton] at hy
    subst hy
    exact absurd rfl (Nat.ne_of_lt (hn x hx))⟩

lemma observerInv_resolve (c : CoValueCore) (o : Option VerifiedState)
    (hI : observerInv c) : observerInv (resolveObservers c o) := by
  obtain ⟨hw, hd, hnd⟩ := hI
  refine ⟨fun t ht => absurd ht (List.not_mem_nil t), fun q hq => ?_, ?_⟩
  · rcases List.mem_append.mp hq with h1 | h2
    · exact hd q h1
    · obtain ⟨t, ht, hq2⟩ := List.mem_map.mp h2
      rw [← hq2]
      exact hw t ht
  · simp only [resolveObservers, List.nil_append, List.map_append,
      List.map_map]
    have hmap : ∀ l : List Nat, l.map (Prod.fst ∘ fun t => (t, o)) = l := by
      intro l
      induction l with
      | nil => rfl
      | cons x xs ih =>
        rw [List.map_cons, ih]
        rfl
    rw [hmap]
    exact List.perm_append_comm.nodup hnd

lemma observerInv_checkTermination (c : CoValueCore)
    (hI : observerInv c) : observerInv (checkTermination c) := by
  rw [checkTermination]
  split
  · exact observerInv_resolve _ none hI
  · exact hI

lemma observerInv_waitFor (c : CoValueCore) (hI : observerInv c) :
    observerInv (waitForAvailableOrUnavailable c) := by
  obtain ⟨hw, hd, hnd⟩ := hI
  have hbound : ∀ x ∈ c.waiting ++ c.delivered.map Prod.fst,
      x < c.nextObserver := by
    intro x hx
    rcases List.mem_append.mp hx with h1 | h2
    · exact hw x h1
    · obtain ⟨q, hq, hx2⟩ := List.mem_map.mp h2
      rw [← hx2]
      exact hd q hq
  have hsettled : ∀ v : Option VerifiedState, observerInv
      { c with delivered := c.delivered ++ [(c.nextObserver, v)],
               nextObserver := c.nextObserver + 1 } := by
    intro v
    refine ⟨fun t ht => Nat.lt_succ_of_lt (hw t ht), fun q hq => ?_, ?_⟩
    · rcases List.mem_append.mp hq with h1 | h2
      · exact Nat.lt_succ_of_lt (hd q h1)
      · rw [List.mem_singleton] at h2
        rw [h2]
        exact Nat.lt_succ_self _
    · show (c.waiting ++ (c.delivered ++ [(c.nextObserver, v)]).map
        Prod.fst).Nodup
      rw [List.map_append, ← List.append_assoc]
      exact nodup_append_singleton hnd hbound
  have hregister : observerInv
      { c with waiting := c.waiting ++ [c.nextObserver],
               nextObserver := c.nextObserver + 1 } := by
    refine ⟨?_, fun q hq => Nat.lt_succ_of_lt (hd q hq), ?_⟩
    · intro t ht
      rcases List.mem_append.mp ht with h1 | h2
      · exact Nat.lt_succ_of_lt (hw t h1)
      · rw [List.mem_singleton] at h2
        rw [h2]
        exact Nat.lt_succ_self _
    · show ((c.waiting ++ [c.nextObserver]) ++ c.delivered.map
        Prod.fst).Nodup
      have hperm : List.Perm
          ((c.waiting ++ c.delivered.map Prod.fst) ++ [c.nextObserver])
          ((c.waiting ++ [c.nextObserver]) ++ c.delivered.map Prod.fst) := by
        rw [List.append_assoc, List.append_assoc]
        exact List.Perm.append_left c.waiting List.perm_append_comm
      exact hperm.nodup (nodup_append_singleton hnd hbound)
  cases hst : c.loadingState with
  | available =>
    simp only [waitForAvailableOrUnavailable, hst]
    exact hsettled c.verified
  | unavailable =>
    simp only [waitForAvailableOrUnavailable, hst]
    exact hsettled none
  | unknown =>
    simp only [waitForAvailableOrUnavailable, hst]
    exact hregister
  | loading =>
    simp only [waitForAvailableOrUnavailable, hst]
    exact hregister
  | errored =>
    simp only [waitForAvailableOrUnavailable, hst]
    exact hregister

lemma observerInv_applyEvent (c : CoValueCore) (e : CoreEvent)
    (hI : observerInv c) : observerInv (applyEvent c e) := by
  cases e with
  | waitFor => exact observerInv_waitFor c hI
  | load ps =>
    simp only [applyEvent]
    rw [loadFromPeers]
    split
    · exact observerInv_checkTermination _ hI
    · exact hI
  | notFoundIn p =>
    simp only [applyEvent]
    rw [markNotFoundInPeer]
    split
    · exact observerInv_checkTermination _ hI
    · exact hI
  | erroredIn p =>
    simp only [applyEvent]
    rw [markErrored]
    split
    · exact observerInv_checkTermination _ hI
    · exact hI
  | timeoutIn p =>
    simp only [applyEvent]
    rw [timeoutPeer]
    split
    · exact observerInv_checkTermination _ hI
    · exact hI
  | closePeer p => exact observerInv_checkTermination _ hI
  | provideHdr h o =>
    simp only [applyEvent]
    by_cases hmis : c.hashHeader h ≠ c.id
    · rw [provideHeader, if_pos hmis]
      exact hI
    · by_cases hav : c.loadingState = .available
      · rw [provideHeader_available_fst c h o hav]
        exact hI
      · rw [provideHeader_not_available c h o (not_not.mp hmis) hav]
        exact observerInv_resolve _ _ hI

lemma observerInv_run (c : CoValueCore) (es : List CoreEvent)
    (hI : observerInv c) : observerInv (runEvents c es) := by
  induction es generalizing c with
  | nil => exact hI
  | cons e es ih =>
    rw [runEvents, List.foldl_cons]
    exact ih (applyEvent c e) (observerInv_applyEvent c e hI)

lemma mem_broadcastTargets (c : CoValueCore) (o : Option PeerID)
    (q : PeerID) :
    q ∈ broadcastTargets c o ↔ ∃ st, (q, st) ∈ c.solicited ∧
      some q ≠ o ∧ st ≠ PeerLoadStatus.errored ∧
      st ≠ PeerLoadStatus.closed := by
  constructor
  · intro hq
    simp only [broadcastTargets, List.mem_map, List.mem_filter,
      decide_eq_true_eq] at hq
    obtain ⟨⟨q1, st⟩, ⟨hmem, hcond⟩, hfst⟩ := hq
    subst hfst
    exact ⟨st, hmem, hcond⟩
  · rintro ⟨st, hmem, hcond⟩
    simp only [broadcastTargets, List.mem_map, List.mem_filter,
      decide_eq_true_eq]
    exact ⟨(q, st), ⟨hmem, hcond⟩, rfl⟩

/-- The concrete node hash used in witness scenarios: headers without a
uniqueness nonce hash to the test CoValue ID 7, headers with one to 8
(§3: the nonce perturbs the ID). -/
def fxHash : CoValueHeader → CoValueID :=
  fun h => if h.uniqueness = none then 7 else 8

/-- A concrete test header, mirroring `testCoValueHeader` in the source
test file. -/
def fxHeader : CoValueHeader := ⟨.comap, .ownedByGroup 3, none, none⟩

/-- A header perturbed by a uniqueness nonce: under `fxHash` it hashes to
8, not to the test core's id 7. -/
def fxHeaderAlt : CoValueHeader := ⟨.comap, .ownedByGroup 3, none, some 1⟩

def fxPeer1 : Peer := ⟨"peer1", .server, false⟩

def fxPeer2 : Peer := ⟨"peer2", .server, false⟩

def fxPeer1Closed : Peer := ⟨"peer1", .server, true⟩

def fxCore : CoValueCore := CoValueCore.fromID 7 fxHash

/-- C1: on a loading core, under any sequence of `markNotFoundInPeer`,
`markErrored`, timeout, and peer-closure events, the core is
`unavailable` exactly when the pending set (solicited peers not closed,
errored, not-found, or past deadline) has drained; it never becomes
anything else than `loading` or `unavailable` without a `provideHeader`,
in particular never `unavailable` while some peer is still pending; and a
valid header supplied at any such point takes it to `available`
instead. -/
theorem loading_termination (c : CoValueCore) (es : List CoreEvent)
    (hs : c.loadingState = .loading) (hp : pendingPeers c ≠ [])
    (hev : ∀ e ∈ es, e.isPeerFailure = true) :
    ((runEvents c es).loadingState = .unavailable ↔
      pendingPeers (runEvents c es) = []) ∧
    ((runEvents c es).loadingState = .loading ∨
      (runEvents c es).loadingState = .unavailable) ∧
    (∀ h o, (runEvents c es).hashHeader h = (runEvents c es).id →
      (provideHeader (runEvents c es) h o).1.loadingState = .available) := by
  have hP : loadingPhaseInv (runEvents c es) :=
    loadingPhaseInv_run c es hev
      ⟨Or.inl hs, fun _ => hp, fun hu => by
        rw [hs] at hu
        cases hu⟩
  refine ⟨⟨fun hu => hP.2.2 hu, fun hnil => ?_⟩, hP.1, fun h o hh => ?_⟩
  · rcases hP.1 with hl | hu
    · exact absurd hnil (hP.2.1 hl)
    · exact hu
  · have hna : (runEvents c es).loadingState ≠ .available := by
      rcases hP.1 with hl | hu
      · rw [hl]
        intro hc
        cases hc
      · rw [hu]
        intro hc
        cases hc
    rw [provideHeader_not_available _ h o hh hna]
    rfl

/-- Witness for C1: spec §8 scenario 1 — after `loadFromPeers([peer1,
peer2])`, `markErrored("peer1")` and `markNotFoundInPeer("peer2")` drain
the pending set and the core is `unavailable`; a valid header would have
made it `available` instead. -/
theorem loading_termination_witness :
    pendingPeers (runEvents (runEvents fxCore [.load [fxPeer1, fxPeer2]])
      [.erroredIn "peer1", .notFoundIn "peer2"]) = [] ∧
    (runEvents (runEvents fxCore [.load [fxPeer1, fxPeer2]])
      [.erroredIn "peer1", .notFoundIn "peer2"]).loadingState =
      .unavailable ∧
    (provideHeader (runEvents (runEvents fxCore [.load [fxPeer1, fxPeer2]])
      [.erroredIn "peer1", .notFoundIn "peer2"]) fxHeader
        none).1.loadingState = .available := by
  obtain ⟨h1, _, h3⟩ := loading_termination
    (runEvents fxCore [.load [fxPeer1, fxPeer2]])
    [.erroredIn "peer1", .notFoundIn "peer2"] (by decide) (by decide)
    (by decide)
  exact ⟨h1.mp (by decide), by decide, h3 fxHeader none (by decide)⟩

/-- The event run exhibiting two observers with different outcomes: an
observer registered while loading, the only peer not-found (resolution to
`unavailable`), a late `provideHeader`, then a second observer. -/
def fxObserverRun : List CoreEvent :=
  [.load [fxPeer1], .waitFor, .notFoundIn "peer1",
    .provideHdr fxHeader none, .waitFor]

/-- Counterexample to C2 as stated: in the run `fxObserverRun`, observer 0
(registered before resolution) observes `{verified: null}` from the
resolution to `unavailable`, while observer 1 (registered after a later
`provideHeader` moved the core to `available`) observes the verified
state — two observers of the same core observe different outcomes. -/
theorem waitFor_same_outcome_counterexample :
    (runEvents fxCore fxObserverRun).delivered =
      [(0, none), (1, some (VerifiedState.fromHeader 7 fxHeader))] ∧
    ((none : Option VerifiedState) ≠
      some (VerifiedState.fromHeader 7 fxHeader)) := by
  decide

/-- C2 amended: every observer token is delivered at most once (and is
never both waiting and delivered); whenever a step delivers outcomes to
observers, each delivered outcome is the core's settled outcome after the
step — the installed verified state if it is then `available`, null if
`unavailable` — so all observers delivered at one resolution observe the
same outcome; and an observer registered on a settled core observes the
current settled outcome synchronously, which can differ from the original
resolution only when a later `provideHeader` has moved the core from
`unavailable` to `available`. -/
theorem waitFor_observer_protocol (i : CoValueID)
    (hash : CoValueHeader → CoValueID) (es : List CoreEvent) :
    observerInv (runEvents (CoValueCore.fromID i hash) es) ∧
    (∀ c : CoValueCore, ∀ e : CoreEvent, ∃ xs,
      (applyEvent c e).delivered = c.delivered ++ xs ∧
      ∀ q ∈ xs, q.2 = settledOutcome (applyEvent c e)) ∧
    (∀ c : CoValueCore,
      c.loadingState = .available ∨ c.loadingState = .unavailable →
      (waitForAvailableOrUnavailable c).delivered =
        c.delivered ++ [(c.nextObserver, settledOutcome c)]) := by
  refine ⟨observerInv_run _ es ⟨fun t ht => absurd ht (List.not_mem_nil t),
    fun q hq => absurd hq (List.not_mem_nil q), List.nodup_nil⟩,
    delivered_applyEvent, fun c hc => ?_⟩
  rcases hc with hc | hc
  · simp [waitForAvailableOrUnavailable, hc, settledOutcome]
  · simp [waitForAvailableOrUnavailable, hc, settledOutcome]

/-- Witness for the amended C2: on the counterexample run the observer
bookkeeping invariant holds, and a further synchronous observer on the
(`available`) core observes the current settled outcome. -/
theorem waitFor_observer_protocol_witness :
    observerInv (runEvents fxCore fxObserverRun) ∧
    (waitForAvailableOrUnavailable
        (runEvents fxCore fxObserverRun)).delivered =
      (runEvents fxCore fxObserverRun).delivered ++
        [((runEvents fxCore fxObserverRun).nextObserver,
          settledOutcome (runEvents fxCore fxObserverRun))] := by
  obtain ⟨h1, _, h3⟩ := waitFor_observer_protocol 7 fxHash fxObserverRun
  exact ⟨h1, h3 (runEvents fxCore fxObserverRun) (Or.inl (by decide))⟩

/-- C3: when a loading core becomes available because peer `p` supplied
the header, the outbox is extended with `{action: "load",
...verified.knownState()}` to exactly the broadcast targets; the supplying
peer is not a target, and every other solicited peer that is not errored
or closed is. -/
theorem becomeAvailable_broadcasts (c : CoValueCore) (h : CoValueHeader)
    (p : PeerID) (hs : c.loadingState = .loading)
    (hh : c.hashHeader h = c.id) :
    (provideHeader c h (some p)).1.loadingState = .available ∧
    (provideHeader c h (some p)).1.outbox = c.outbox ++
      (broadcastTargets c (some p)).map (fun q =>
        (q, loadMsg (VerifiedState.fromHeader c.id h).knownState)) ∧
    p ∉ broadcastTargets c (some p) ∧
    (∀ q st, (q, st) ∈ c.solicited → q ≠ p →
      st ≠ PeerLoadStatus.errored → st ≠ PeerLoadStatus.closed →
      q ∈ broadcastTargets c (some p)) := by
  rw [provideHeader_not_available c h (some p) hh (by rw [hs]; intro hc; cases hc)]
  refine ⟨rfl, rfl, ?_, ?_⟩
  · intro hp
    obtain ⟨st, _, hne, _, _⟩ := (mem_broadcastTargets c (some p) p).mp hp
    exact hne rfl
  · intro q st hmem hq he hcl
    exact (mem_broadcastTargets c (some p) q).mpr
      ⟨st, hmem, by simpa using hq, he, hcl⟩

/-- Witness for C3: the broadcast scenario of the spec (§8 scenario 3) —
after `loadFromPeers([peer1, peer2])`, `markNotFoundInPeer("peer2")` and
peer1 supplying the header, peer2 is a broadcast target with the
`{action: "load", id, header: true, sessions: {}}` message and peer1 is
not. -/
theorem becomeAvailable_broadcasts_witness :
    (provideHeader
        (runEvents fxCore [.load [fxPeer1, fxPeer2], .notFoundIn "peer2"])
        fxHeader (some "peer1")).1.loadingState = .available ∧
    (provideHeader
        (runEvents fxCore [.load [fxPeer1, fxPeer2], .notFoundIn "peer2"])
        fxHeader (some "peer1")).1.outbox =
      [("peer1", loadMsg ⟨7, false, ∅⟩), ("peer2", loadMsg ⟨7, false, ∅⟩),
        ("peer2", loadMsg ⟨7, true, ∅⟩)] ∧
    "peer1" ∉ broadcastTargets
      (runEvents fxCore [.load [fxPeer1, fxPeer2], .notFoundIn "peer2"])
      (some "peer1") := by
  obtain ⟨h1, h2, h3, _⟩ := becomeAvailable_broadcasts
    (runEvents fxCore [.load [fxPeer1, fxPeer2], .notFoundIn "peer2"])
    fxHeader "peer1" (by decide) (by decide)
  refine ⟨h1, ?_, h3⟩
  rw [h2]
  decide

/-- C6: on a core that has reached `unavailable`, a later
`provideHeader(H)` with `hash(H) == id` succeeds, transitions the core to
`available`, installs the verified state built from `H`, and a subsequent
`waitForAvailableOrUnavailable` observes `{verified}` whose header is
`H`. -/
theorem provideHeader_after_unavailable (c : CoValueCore)
    (h : CoValueHeader) (o : Option PeerID)
    (hs : c.loadingState = .unavailable) (hh : c.hashHeader h = c.id) :
    (provideHeader c h o).2 = none ∧
    (provideHeader c h o).1.loadingState = .available ∧
    (provideHeader c h o).1.verified =
      some (VerifiedState.fromHeader c.id h) ∧
    (waitForAvailableOrUnavailable (provideHeader c h o).1).delivered =
      (provideHeader c h o).1.delivered ++
        [((provideHeader c h o).1.nextObserver,
          some (VerifiedState.fromHeader c.id h))] ∧
    (VerifiedState.fromHeader c.id h).header = h := by
  rw [provideHeader_not_available c h o hh (by rw [hs]; intro hc; cases hc)]
  exact ⟨rfl, rfl, rfl, rfl, rfl⟩

/-- Witness for C6: spec §8 scenario 2 — after a load attempt that ended
`unavailable` (peer1 not-found), `provideHeader(fxHeader)` makes the core
`available` and a new observer sees the verified state with that
header. -/
theorem provideHeader_after_unavailable_witness :
    (runEvents fxCore [.load [fxPeer1], .notFoundIn "peer1"]).loadingState =
      .unavailable ∧
    (provideHeader (runEvents fxCore [.load [fxPeer1], .notFoundIn "peer1"])
        fxHeader none).1.loadingState = .available ∧
    (waitForAvailableOrUnavailable
        (provideHeader
          (runEvents fxCore [.load [fxPeer1], .notFoundIn "peer1"])
          fxHeader none).1).delivered =
      [(0, some (VerifiedState.fromHeader 7 fxHeader))] ∧
    (VerifiedState.fromHeader 7 fxHeader).header = fxHeader := by
  obtain ⟨_, h2, _, h4, _⟩ := provideHeader_after_unavailable
    (runEvents fxCore [.load [fxPeer1], .notFoundIn "peer1"]) fxHeader none
    (by decide) (by decide)
  refine ⟨by decide, h2, ?_, by decide⟩
  rw [h4]
  decide

/-- C7: closed peers passed to `loadFromPeers` are never contacted: the
messages added by `loadFromPeers` go exactly to the non-closed peers, so a
peer all of whose entries are closed receives nothing; and a closed peer
does not prevent the load from terminating. -/
theorem loadFromPeers_skips_closed (c : CoValueCore) (peers : List Peer)
    (hs : c.loadingState = .unknown) :
    ((loadFromPeers c peers).outbox = c.outbox ++
      (peers.filter fun p => !p.closed).map
        (fun p => (p.id, loadMsg (currentKnownState c)))) ∧
    (∀ pid m, (∀ q ∈ peers, q.id = pid → q.closed = true) →
      (pid, m) ∈ (loadFromPeers c peers).outbox → (pid, m) ∈ c.outbox) := by
  have houtbox : (loadFromPeers c peers).outbox = c.outbox ++
      (peers.filter fun p => !p.closed).map
        (fun p => (p.id, loadMsg (currentKnownState c))) := by
    rw [loadFromPeers, if_pos hs, checkTermination_outbox]
  refine ⟨houtbox, fun pid m hclosed hmem => ?_⟩
  rw [houtbox] at hmem
  rcases List.mem_append.mp hmem with hold | hnew
  · exact hold
  · exfalso
    obtain ⟨q, hq, hq2⟩ := List.mem_map.mp hnew
    obtain ⟨hqmem, hqopen⟩ := List.mem_filter.mp hq
    have : q.closed = true := hclosed q hqmem (congrArg Prod.fst hq2)
    simp [this] at hqopen

/-- Witness for C7: spec §8 scenario 4 — peer1 closed before
`loadFromPeers([peer1, peer2])` and peer2 supplying the header: peer1
receives zero outbound messages, peer2 exactly one, and the core ends
`available`. -/
theorem loadFromPeers_skips_closed_witness :
    (loadFromPeers fxCore [fxPeer1Closed, fxPeer2]).outbox =
      [("peer2", loadMsg ⟨7, false, ∅⟩)] ∧
    (∀ m, ("peer1", m) ∈ (loadFromPeers fxCore
      [fxPeer1Closed, fxPeer2]).outbox → ("peer1", m) ∈ fxCore.outbox) ∧
    (runEvents fxCore [.load [fxPeer1Closed, fxPeer2],
        .provideHdr fxHeader (some "peer2")]).outbox =
      [("peer2", loadMsg ⟨7, false, ∅⟩)] ∧
    (runEvents fxCore [.load [fxPeer1Closed, fxPeer2],
        .provideHdr fxHeader (some "peer2")]).loadingState = .available := by
  obtain ⟨h1, h2⟩ := loadFromPeers_skips_closed fxCore
    [fxPeer1Closed, fxPeer2] (by decide)
  refine ⟨by rw [h1]; decide, fun m => h2 "peer1" m (by decide), by decide,
    by decide⟩

/-- C9: on an `available` core, `provideHeader` with the installed header
is an idempotent success — the core is returned unchanged (no state
change, no message, no re-notification) — and `provideHeader` with any
header that does not hash to the core's id fails with `HeaderMismatch`
and leaves the core unchanged. -/
theorem provideHeader_available_idempotent_mismatch (c : CoValueCore)
    (h h' : CoValueHeader) (o o' : Option PeerID) (v : VerifiedState)
    (hav : c.loadingState = .available) (hver : c.verified = some v)
    (hsame : v.header = h) (hh : c.hashHeader h = c.id)
    (hmis : c.hashHeader h' ≠ c.id) :
    provideHeader c h o = (c, none) ∧
    provideHeader c h' o' = (c, some .headerMismatch) := by
  constructor
  · have hcond : ¬c.hashHeader h ≠ c.id := fun hc => hc hh
    simp [provideHeader, hcond, hav, hver, hsame]
  · rw [provideHeader, if_pos hmis]

/-- Witness for C9: after `provideHeader(fxHeader)` on the fresh core, a
second `provideHeader(fxHeader)` returns the core unchanged with no
error, and `provideHeader(fxHeaderAlt)` — whose hash 8 is not the core's
id 7 — is rejected with `HeaderMismatch`, also leaving the core
unchanged. -/
theorem provideHeader_available_idempotent_mismatch_witness :
    provideHeader (provideHeader fxCore fxHeader none).1 fxHeader none =
      ((provideHeader fxCore fxHeader none).1, none) ∧
    provideHeader (provideHeader fxCore fxHeader none).1 fxHeaderAlt none =
      ((provideHeader fxCore fxHeader none).1, some .headerMismatch) :=
  provideHeader_available_idempotent_mismatch
    (provideHeader fxCore fxHeader none).1 fxHeader fxHeaderAlt none none
    (VerifiedState.fromHeader 7 fxHeader) (by decide) (by decide)
    (by decide) (by decide) (by decide)

/-- C8: every state transition decrements the gauge for the old state
label and increments it for the new one, the initial creation into
`unknown` only increments, so that each label's gauge equals its live
population and the gauge sum across `{unknown, loading, available,
unavailable}` equals the number of live CoValueCores. -/
theorem metrics_gauge_sum (es : List SysEvent) :
    (∀ lab : LoadingState, ((runSys es).gauges lab).getD 0 =
      (countIn (runSys es) lab : Int)) ∧
    gaugeSum (runSys es).gauges = ((runSys es).cores.length : Int) := by
  obtain ⟨hg, he⟩ := sysInv_run es
  refine ⟨hg, ?_⟩
  rw [gaugeSum]
  simp only [hg]
  have hlen : (runSys es).cores.length =
      countIn (runSys es) .unknown + countIn (runSys es) .loading +
      countIn (runSys es) .available + countIn (runSys es) .unavailable :=
    length_eq_sum_counts (runSys es).cores he
  omega

/-- The concrete node-level run used for the metrics witnesses: create a
core, start loading from peer1, then peer1 answers not-found. -/
def fxSysRun : List SysEvent :=
  [.createCore 7 fxHash, .coreEvent 0 (.load [fxPeer1]),
    .coreEvent 0 (.notFoundIn "peer1")]

/-- C10: a state label's gauge has no recorded value until some core
first enters that state — if no core was in the state at any point of the
run, the gauge still reads `none` (undefined, not zero) at the end, and
conversely a gauge reading `none` means no core was ever in that state —
and once the gauge is recorded it stays recorded (so after every core has
left the state it reads the live count, `0`, rather than becoming
unset). -/
theorem gauge_unset_until_entered (es : List SysEvent)
    (lab : LoadingState) :
    ((∀ n < es.length + 1, ∀ c ∈ (runSys (es.take n)).cores,
        c.loadingState ≠ lab) → (runSys es).gauges lab = none) ∧
    (∀ m n : Nat, m ≤ n → (runSys (es.take n)).gauges lab = none →
      ∀ c ∈ (runSys (es.take m)).cores, c.loadingState ≠ lab) ∧
    (∀ m n : Nat, m ≤ n → ∀ k, (runSys (es.take m)).gauges lab = some k →
      ∃ k', (runSys (es.take n)).gauges lab = some k') ∧
    (∀ k, (runSys es).gauges lab = some k →
      k = (countIn (runSys es) lab : Int)) := by
  have hseg : ∀ m n : Nat, m ≤ n → runSys (es.take n) =
      ((es.drop m).take (n - m)).foldl stepSys (runSys (es.take m)) := by
    intro m n hmn
    rw [runSys, runSys, ← List.foldl_append, ← List.take_add,
      Nat.add_sub_cancel' hmn]
  refine ⟨fun hnever => ?_, fun m n hmn hnone c hc hcl => ?_,
    fun m n hmn k hk => ?_, fun k hk => ?_⟩
  · apply run_gauge_none_of_never es lab
    intro n
    by_cases hn : n < es.length + 1
    · exact hnever n hn
    · have hfull := hnever es.length (Nat.lt_succ_self _)
      rw [List.take_length] at hfull
      rw [List.take_of_length_le (by omega)]
      exact hfull
  · rw [hseg m n hmn] at hnone
    have hm := foldl_gauge_none _ _ _ hnone
    exact gaugeCoverInv_run lab (es.take m) c hc hcl hm
  · rw [hseg m n hmn]
    cases hopt : (((es.drop m).take (n - m)).foldl stepSys
        (runSys (es.take m))).gauges lab with
    | none =>
      have hmn' := foldl_gauge_none _ _ _ hopt
      rw [hmn'] at hk
      exact Option.noConfusion hk
    | some k' => exact ⟨k', rfl⟩
  · have hg := (sysInv_run es).1 lab
    rw [hk] at hg
    simpa using hg

/-- Witness for C10: in `fxSysRun` no core was ever `available` at any
point, so the `available` gauge still reads `none` (undefined, not zero)
at the end; the `loading` gauge, recorded when the core entered `loading`
(reading `1` after step 2), remains recorded at the end; and its final
recorded value is the live `loading` population, `0`, after the core left
`loading` for `unavailable`. -/
theorem gauge_unset_until_entered_witness :
    (runSys fxSysRun).gauges .available = none ∧
    (∀ c ∈ (runSys (fxSysRun.take 3)).cores,
      c.loadingState ≠ .available) ∧
    (∃ k', (runSys (fxSysRun.take 3)).gauges .loading = some k') ∧
    ((0 : Int) = (countIn (runSys fxSysRun) .loading : Int)) := by
  obtain ⟨ha0, ha1, _, _⟩ := gauge_unset_until_entered fxSysRun .available
  obtain ⟨_, _, hb2, hb3⟩ := gauge_unset_until_entered fxSysRun .loading
  refine ⟨ha0 (by decide), ha1 3 3 (Nat.le_refl 3) (by decide), ?_, ?_⟩
  · exact hb2 2 3 (by omega) 1 (by decide)
  · exact hb3 0 (by decide)
